import Mathlib

/-!
Shallow embedding of the `0-shell` command interpreter core
(`src/lib.rs` tokenizer, `src/main.rs` driver loop and dispatcher,
`src/cd/mod.rs` directory-change handler).

Rust `String`s are modelled as `List Char`; the byte-level operations
that matter (UTF-8 byte slicing in `cd`) are modelled through
`Char.utf8Size`.  Filesystem effects are modelled by an oracle record.
-/

namespace Shell

/-- Scanner state of the tokenizer (`enum State` in `custom_split`). -/
inductive QState
  | Normal
  | DoubleQuote
  | SingleQuote
deriving DecidableEq, Repr

/-- Parsed command: `struct Command { name, args }` from `src/lib.rs`. -/
structure Command where
  name : List Char
  args : List (List Char)
deriving DecidableEq, Repr

/-- The `Command.add_string` method: ignore empty words, first word becomes
`name`, later words are appended to `args`. -/
def add_string (c : Command) (word : List Char) : Command :=
  if word = [] then c
  else if c.name = [] then { c with name := word }
  else { c with args := c.args ++ [word] }

/-- The `Command.add_string_whatever` method: like `add_string` but without
the emptiness check (used for tokens closed by a quote). -/
def add_string_whatever (c : Command) (word : List Char) : Command :=
  if c.name = [] then { c with name := word }
  else { c with args := c.args ++ [word] }

/-- Mutable scanner state threaded through `custom_split`'s loops. -/
structure St where
  command : Command
  word : List Char
  state : QState
  openBackslash : Bool
deriving DecidableEq, Repr

/-- The initial scanner state at the top of `custom_split`. -/
def st0 : St :=
  { command := { name := [], args := [] }, word := [], state := .Normal,
    openBackslash := false }

/-- Rust `str::split("\n")`: cut the character list at every line feed.
The result is always non-empty. -/
def splitNl : List Char → List (List Char)
  | [] => [[]]
  | c :: cs =>
    if c = '\n' then [] :: splitNl cs
    else List.modifyHead (fun t => c :: t) (splitNl cs)

/-- Inner character loop of `custom_split` over one physical line
(`while let Some(ch) = chars.next()`), including the one-character
look-ahead (`chars.peek`) used when a quote closes. -/
def proc_chars : List Char → St → St
  | [], st => st
  | ch :: rest, st =>
    match st.state with
    | .Normal =>
      if ch = '\\' ∧ st.openBackslash = false then
        proc_chars rest { st with openBackslash := true }
      else if ch.isWhitespace ∧ st.openBackslash = false then
        proc_chars rest
          { st with command := add_string st.command st.word, word := [] }
      else if ch = '"' ∧ st.openBackslash = false then
        proc_chars rest { st with state := .DoubleQuote }
      else if ch = '\'' ∧ st.openBackslash = false then
        proc_chars rest { st with state := .SingleQuote }
      else
        proc_chars rest
          { st with word := st.word ++ [ch], openBackslash := false }
    | .DoubleQuote =>
      if ch = '"' ∧ st.openBackslash = false then
        match rest with
        | ch2 :: rest2 =>
          if ch2.isWhitespace then
            proc_chars rest2
              { st with state := .Normal,
                        command := add_string_whatever st.command st.word,
                        word := [] }
          else
            proc_chars (ch2 :: rest2) { st with state := .Normal }
        | [] => { st with state := .Normal }
      else if ch = '\\' ∧ st.openBackslash = false then
        proc_chars rest { st with openBackslash := true }
      else if st.openBackslash then
        if ch = '"' ∨ ch = '\\' ∨ ch = Char.ofNat 96 ∨ ch = '$' then
          proc_chars rest
            { st with word := st.word ++ [ch], openBackslash := false }
        else
          proc_chars rest
            { st with word := st.word ++ ['\\', ch], openBackslash := false }
      else
        proc_chars rest { st with word := st.word ++ [ch] }
    | .SingleQuote =>
      if ch = '\'' then
        match rest with
        | ch2 :: rest2 =>
          if ch2.isWhitespace then
            proc_chars rest2
              { st with state := .Normal,
                        command := add_string_whatever st.command st.word,
                        word := [] }
          else
            proc_chars (ch2 :: rest2) { st with state := .Normal }
        | [] => { st with state := .Normal }
      else
        proc_chars rest { st with word := st.word ++ [ch] }

/-- The two statements run at the top of the per-line loop in
`custom_split`: push a literal newline when still inside a quote, and
drop a pending backslash when this is not the final physical line. -/
def line_start (isLast : Bool) (st : St) : St :=
  let st :=
    if st.state ≠ .Normal ∧ st.openBackslash = false then
      { st with word := st.word ++ ['\n'] }
    else st
  if st.openBackslash = true ∧ isLast = false then
    { st with openBackslash := false }
  else st

/-- Process one physical line: line-start bookkeeping then the char loop. -/
def proc_line (isLast : Bool) (line : List Char) (st : St) : St :=
  proc_chars line (line_start isLast st)

/-- The `for (i, line) in chs.iter().enumerate()` loop of `custom_split`;
the pattern distinguishes the final line (`i == chs.len() - 1`). -/
def proc_lines : List (List Char) → St → St
  | [], st => st
  | [l], st => proc_line true l st
  | l :: l' :: ls, st => proc_lines (l' :: ls) (proc_line false l st)

/-- Final flush of `custom_split`: a leftover non-empty word is added. -/
def finish (st : St) : Command :=
  if st.word ≠ [] then add_string st.command st.word else st.command

/-- The `custom_split` method of `impl CostumSplit for String`:
split on line feeds, run the scanner, flush the last word, and report
whether a quote or a backslash is still open. -/
def custom_split (input : List Char) : Command × Bool :=
  let st := proc_lines (splitNl input) st0
  (finish st,
   decide ((st.state = .DoubleQuote ∨ st.state = .SingleQuote) ∨
     st.openBackslash = true))

/-- Rust `str::split_whitespace` (also the reference "whitespace-splitting"
of spec section 8): accumulate a word, break at whitespace, drop empties. -/
def ws_split_aux (word : List Char) : List Char → List (List Char)
  | [] => if word = [] then [] else [word]
  | c :: cs =>
    if c.isWhitespace then
      if word = [] then ws_split_aux [] cs else word :: ws_split_aux [] cs
    else ws_split_aux (word ++ [c]) cs

/-- Whitespace-splitting of a whole character list. -/
def ws_split (cs : List Char) : List (List Char) := ws_split_aux [] cs

/-- Tokens already stored in a `Command`, in order: the name (when set)
followed by the arguments.  These are exactly the tokens the scanner has
finalized so far. -/
def tokensOf (c : Command) : List (List Char) :=
  (if c.name = [] then [] else [c.name]) ++ c.args

/-- Tokens finalized (closed) by scanning a buffer, before the final
word flush of `custom_split`. -/
def closed_tokens (input : List Char) : List (List Char) :=
  tokensOf (proc_lines (splitNl input) st0).command

/-- Model of `std::path::PathBuf`: an absolute flag plus components.
`push` replaces the whole path when the pushed path is absolute, which is
the only case exercised by this program. -/
structure RPath where
  absolute : Bool
  components : List (List Char)
deriving DecidableEq, Repr

/-- Model of `PathBuf::push`. -/
def RPath.push (p q : RPath) : RPath :=
  if q.absolute then q
  else { absolute := p.absolute, components := p.components ++ q.components }

/-- Model of `Path::display().to_string()` on Unix. -/
def RPath.display (p : RPath) : List Char :=
  (if p.absolute then ['/'] else []) ++
    (p.components.intersperse ['/']).flatten

/-- Filesystem / side-effect oracle: outcomes of the process-level calls
made by the dispatcher and by `cd` (`set_current_dir`, `current_dir`,
and the statuses returned by the out-of-scope builtin collaborators). -/
structure Oracle where
  status : List Char → List (List Char) → Int
  cdSetOk : List Char → Bool
  cdCur : Option RPath

/-- The `_ if path.len() != 0` arm of the `match` in `cd`: tilde
expansion through the byte slices `&path[0..1]` and `&path[1..]`, then
`set_current_dir`.  Returns `none` when the byte slice panics (index 1 is
not a character boundary, i.e. the first character is multi-byte), and
otherwise whether the directory change succeeded. -/
def cd_change (path : List Char) (home : RPath) (o : Oracle) : Option Bool :=
  match path with
  | [] => some true
  | c :: rest =>
    if c.utf8Size ≠ 1 then none
    else
      let path := if c = '~' then home.display ++ rest else c :: rest
      some (o.cdSetOk path)

/-- The `cd` handler from `src/cd/mod.rs`.  Returns `none` when the Rust
code would panic, and otherwise `some (status, history, current_di)` with
the updated previous-directory marker and current directory. -/
def cd (tab : List (List Char)) (history : RPath) (current_di : RPath)
    (home : RPath) (o : Oracle) : Option (Int × RPath × RPath) :=
  let path := (tab.head?).getD home.display
  let change :=
    if path = ['-'] then some (o.cdSetOk history.display)
    else if path ≠ [] then cd_change path home o
    else some true
  match change with
  | none => none
  | some false => some (1, history, current_di)
  | some true =>
    let history := history.push current_di
    match o.cdCur with
    | some dir => some (0, history, current_di.push dir)
    | none => some (1, history, current_di)

/-- Model of Rust `str::parse::<i32>()`: optional sign, at least one
decimal digit, and a range check against 32-bit two's-complement bounds. -/
def parse_i32 (s : List Char) : Option Int :=
  match s with
  | [] => none
  | c :: rest =>
    let digits := if c = '+' ∨ c = '-' then rest else c :: rest
    let sign : Int := if c = '-' then -1 else 1
    if digits = [] ∨ ¬ digits.all Char.isDigit then none
    else
      let v : Int :=
        sign * ((digits.foldl (fun a d => a * 10 + (d.toNat - '0'.toNat)) 0 : Nat) : Int)
      if v < -(2 ^ 31) ∨ v > 2 ^ 31 - 1 then none else some v

/-- Result of one `exec_command` call: either the process terminates
(`exit` builtin), or a status is returned together with the possibly
updated current directory and previous-directory marker. -/
inductive ExecResult
  | exit (code : Int)
  | status (code : Int) (current_dir : RPath) (history_current_dir : RPath)
deriving DecidableEq, Repr

/-- The list of command names that `exec_command` matches on. -/
def handler_names : List (List Char) :=
  ["echo".data, "pwd".data, "cd".data, "mv".data, "cp".data, "ls".data,
   "cat".data, "rm".data, "mkdir".data, "history".data, "exit".data,
   "clear".data]

/-- The dispatcher `exec_command` from `src/main.rs`.  The built-in
collaborators other than `cd` take the directory by shared reference and
return an integer status (supplied by the oracle); only `cd` can change
the two directory paths.  `none` models a panic inside `cd`. -/
def exec_command (o : Oracle) (command : List Char) (args : List (List Char))
    (current_dir : RPath) (history_current_dir : RPath)
    (home : RPath) (last_command_staus : Int) : Option ExecResult :=
  if command = "echo".data ∨ command = "pwd".data ∨ command = "mv".data ∨
     command = "cp".data ∨ command = "ls".data ∨ command = "cat".data ∨
     command = "rm".data ∨ command = "mkdir".data ∨ command = "history".data then
    some (.status (o.status command args) current_dir history_current_dir)
  else if command = "cd".data then
    match cd args history_current_dir current_dir home o with
    | none => none
    | some (code, history, current) => some (.status code current history)
  else if command = "exit".data then
    if args = [] then some (.exit last_command_staus)
    else
      match parse_i32 (args.headD []) with
      | some code => some (.exit code)
      | none => some (.status 2 current_dir history_current_dir)
  else if command = "clear".data then
    some (.status 0 current_dir history_current_dir)
  else
    some (.status 127 current_dir history_current_dir)

/-- Session state owned by the interactive loop in `main`. -/
structure ShellState where
  current_dir : RPath
  history_current_dir : RPath
  hist : List (List Char)
  last_command_staus : Int
deriving DecidableEq, Repr

/-- One `read_line` from the modelled input stream: `none` stands for a
zero-byte read (end of stream). -/
def stream_read : List (List Char) → Option (List Char) × List (List Char)
  | [] => (none, [])
  | l :: ls => if l = [] then (none, ls) else (some l, ls)

/-- The inner continuation loop of `main`: while the tokenization of the
accumulated entry is still open, read a further line, append it to the
entry, and re-tokenize the whole buffer.  Returns the final entry, the
parsed command, the open flag, and the unread remainder of the stream. -/
def continuation_loop :
    List (List Char) → List Char → Command →
    List Char × Command × Bool × List (List Char)
  | [], entry, command => (entry, command, true, [])
  | input_tmp :: rest, entry, command =>
    if input_tmp = [] then (entry, command, true, rest)
    else
      let entry := entry ++ input_tmp
      let (command2, open_quote) := custom_split entry
      if open_quote then continuation_loop rest entry command2
      else (entry, command2, false, rest)

/-- Acquisition of one logical entry: primary read, tokenize, and run the
continuation loop when the tokenization is open.  `none` models the
zero-byte primary read. -/
def resolve_entry (stream : List (List Char)) :
    Option (List Char × Command × Bool × List (List Char)) :=
  match stream_read stream with
  | (none, _) => none
  | (some entry, rest) =>
    let (command, open_quote) := custom_split entry
    some (if open_quote then continuation_loop rest entry command
          else (entry, command, open_quote, rest))

/-- Observable outcome of one iteration of the `main` loop. -/
inductive StepOut
  | exited (code : Int) (st : ShellState)
  | panicked (st : ShellState)
  | next (stream : List (List Char)) (st : ShellState)
deriving DecidableEq, Repr

/-- One iteration of the `loop` in `main`: acquire an entry (exiting with
code 0 on a zero-byte primary read), discard it when the name is empty or
a quote is still unterminated, otherwise dispatch, record the status, and
append the raw entry to the history when it contains a non-whitespace
character. -/
def main_step (o : Oracle) (home : RPath) (stream : List (List Char))
    (st : ShellState) : StepOut :=
  match resolve_entry stream with
  | none => .exited 0 st
  | some (entry, command, open_quote, rest) =>
    if command.name = [] then .next rest st
    else if open_quote then .next rest st
    else
      match exec_command o command.name command.args st.current_dir
          st.history_current_dir home st.last_command_staus with
      | none => .panicked st
      | some (.exit code) => .exited code st
      | some (.status out current history) =>
        .next rest
          { current_dir := current, history_current_dir := history,
            last_command_staus := out,
            hist := if ws_split entry ≠ [] then st.hist ++ [entry]
                    else st.hist }

/-- A concrete oracle for witnesses: every collaborator reports success,
`set_current_dir` succeeds, and `current_dir` fails. -/
def oracle0 : Oracle :=
  { status := fun _ _ => 0, cdSetOk := fun _ => true, cdCur := none }

/-- A concrete oracle whose `current_dir` call returns `/b`. -/
def oracleCd : Oracle :=
  { status := fun _ _ => 0, cdSetOk := fun _ => true,
    cdCur := some { absolute := true, components := ["b".data] } }

/-- A concrete home directory `/`. -/
def home0 : RPath := { absolute := true, components := [] }

/-- A concrete fresh session state. -/
def stInit : ShellState :=
  { current_dir := home0, history_current_dir := home0, hist := [],
    last_command_staus := 0 }

/-- A concrete session state whose last recorded status is 127. -/
def stC2 : ShellState :=
  { current_dir := home0, history_current_dir := home0, hist := [],
    last_command_staus := 127 }

/-- Processing a list of physical lines, each treated as a non-final line.
Used to factor `proc_lines` over an append. -/
def proc_ns (ls : List (List Char)) (st : St) : St :=
  ls.foldl (fun st l => proc_line false l st) st

/-- Well-formedness of a `Command` reachable by the scanner: arguments are
only ever pushed after a name has been set. -/
def CmdWf (c : Command) : Prop := c.name = [] → c.args = []



theorem splitNl_ne_nil (cs : List Char) : splitNl cs ≠ [] := by
  induction cs with
  | nil => simp [splitNl]
  | cons c cs ih =>
    simp only [splitNl]
    split
    · simp
    · cases h : splitNl cs with
      | nil => exact absurd h ih
      | cons a as => simp [List.modifyHead]

theorem splitNl_no_nl (cs : List Char) (h : '\n' ∉ cs) : splitNl cs = [cs] := by
  induction cs with
  | nil => simp [splitNl]
  | cons c cs ih =>
    simp only [List.mem_cons, not_or] at h
    simp [splitNl, Ne.symm h.1, ih h.2, List.modifyHead]

theorem splitNl_append (a b : List Char) :
    splitNl (a ++ '\n' :: b) = splitNl a ++ splitNl b := by
  induction a with
  | nil => simp [splitNl]
  | cons c cs ih =>
    by_cases hc : c = '\n'
    · subst hc
      simp [splitNl, ih]
    · obtain ⟨r0, rs, hr⟩ := List.exists_cons_of_ne_nil (splitNl_ne_nil cs)
      simp only [List.cons_append, splitNl, List.append_eq]
      rw [if_neg hc, ih, hr]
      simp [List.modifyHead, hc]

theorem line_start_st0 (b : Bool) : line_start b st0 = st0 := by
  simp [line_start, st0]

theorem line_start_command (b : Bool) (st : St) :
    (line_start b st).command = st.command := by
  simp only [line_start]
  split <;> split <;> rfl

theorem proc_chars_quote_skip (c : Char) (r : List Char)
    (hc : c.isWhitespace = true) :
    proc_chars ('"' :: '"' :: c :: r) st0 = proc_chars r st0 := by
  simp [proc_chars, st0, hc, add_string_whatever]

theorem ws_split_aux_ne_nil (cs : List Char) :
    ∀ w t, t ∈ ws_split_aux w cs → t ≠ [] := by
  induction cs with
  | nil =>
    intro w t ht
    simp only [ws_split_aux] at ht
    split at ht
    · simp at ht
    · simp at ht
      subst ht
      assumption
  | cons c cs ih =>
    intro w t ht
    simp only [ws_split_aux] at ht
    split at ht
    · split at ht
      · exact ih [] t ht
      · rcases List.mem_cons.mp ht with h1 | h1
        · subst h1; assumption
        · exact ih [] t h1
    · exact ih _ t ht

theorem foldl_add_string_named (ts : List (List Char)) :
    ∀ n args, n ≠ [] → (∀ t ∈ ts, t ≠ []) →
    List.foldl add_string { name := n, args := args } ts
      = { name := n, args := args ++ ts } := by
  induction ts with
  | nil => intro n args _ _; simp
  | cons t ts ih =>
    intro n args hn hts
    have ht : t ≠ [] := hts t (by simp)
    simp only [List.foldl_cons]
    rw [show add_string { name := n, args := args } t
        = { name := n, args := args ++ [t] } from by
      simp [add_string, ht, hn]]
    rw [ih n (args ++ [t]) hn (fun u hu => hts u (by simp [hu]))]
    simp

theorem foldl_add_string_empty (ts : List (List Char))
    (hts : ∀ t ∈ ts, t ≠ []) :
    List.foldl add_string { name := [], args := [] } ts
      = { name := ts.headD [], args := ts.tail } := by
  cases ts with
  | nil => simp
  | cons t ts =>
    have ht : t ≠ [] := hts t (by simp)
    simp only [List.foldl_cons]
    rw [show add_string { name := [], args := [] } t
        = { name := t, args := [] } from by simp [add_string, ht]]
    rw [foldl_add_string_named ts t [] ht (fun u hu => hts u (by simp [hu]))]
    simp

theorem proc_chars_plain (cs : List Char) :
    ∀ cmd w, (∀ c ∈ cs, ¬c = '"' ∧ ¬c = '\'' ∧ ¬c = '\\') →
    finish (proc_chars cs
        { command := cmd, word := w, state := .Normal, openBackslash := false })
        = List.foldl add_string cmd (ws_split_aux w cs)
    ∧ (proc_chars cs
        { command := cmd, word := w, state := .Normal,
          openBackslash := false }).state = .Normal
    ∧ (proc_chars cs
        { command := cmd, word := w, state := .Normal,
          openBackslash := false }).openBackslash = false := by
  induction cs with
  | nil =>
    intro cmd w _
    refine ⟨?_, rfl, rfl⟩
    simp only [proc_chars, finish, ws_split_aux]
    by_cases hwe : w = []
    · subst hwe; simp
    · simp [hwe]
  | cons c cs ih =>
    intro cmd w h
    have hc := h c (by simp)
    have hrest : ∀ x ∈ cs, ¬x = '"' ∧ ¬x = '\'' ∧ ¬x = '\\' :=
      fun x hx => h x (by simp [hx])
    by_cases hw : c.isWhitespace
    · have hstep : proc_chars (c :: cs)
          { command := cmd, word := w, state := .Normal, openBackslash := false }
          = proc_chars cs
            { command := add_string cmd w, word := [], state := .Normal,
              openBackslash := false } := by
        simp [proc_chars, hc.2.2, hw]
      rw [hstep]
      have ihh := ih (add_string cmd w) [] hrest
      refine ⟨?_, ihh.2⟩
      rw [ihh.1]
      by_cases hwe : w = []
      · subst hwe
        simp [ws_split_aux, hw, add_string]
      · simp [ws_split_aux, hw, hwe]
    · have hstep : proc_chars (c :: cs)
          { command := cmd, word := w, state := .Normal, openBackslash := false }
          = proc_chars cs
            { command := cmd, word := w ++ [c], state := .Normal,
              openBackslash := false } := by
        simp [proc_chars, hc.1, hc.2.1, hc.2.2, hw]
      rw [hstep]
      have ihh := ih cmd (w ++ [c]) hrest
      refine ⟨?_, ihh.2⟩
      rw [ihh.1]
      simp [ws_split_aux, hw]


theorem add_string_wf (c : Command) (w : List Char) (h : CmdWf c) :
    CmdWf (add_string c w) := by
  unfold CmdWf add_string at *
  by_cases hw : w = []
  · simpa [hw] using h
  · by_cases hn : c.name = []
    · simp [hw, hn, h hn]
    · simp [hw, hn]

theorem add_string_whatever_wf (c : Command) (w : List Char) (h : CmdWf c) :
    CmdWf (add_string_whatever c w) := by
  unfold CmdWf add_string_whatever at *
  by_cases hn : c.name = []
  · simp [hn, h hn]
  · simp [hn]

theorem tokensOf_add_string (c : Command) (w : List Char) (h : CmdWf c) :
    tokensOf c <+: tokensOf (add_string c w) := by
  by_cases hw : w = []
  · simp [add_string, hw]
  · by_cases hn : c.name = []
    · have hstep : add_string c w = { name := w, args := c.args } := by
        simp [add_string, hw, hn]
      rw [hstep]
      simp [tokensOf, hn, h hn]
    · have hstep : add_string c w = { name := c.name, args := c.args ++ [w] } := by
        simp [add_string, hw, hn]
      rw [hstep]
      simp only [tokensOf, if_neg hn]
      rw [← List.append_assoc]
      exact List.prefix_append _ _

theorem tokensOf_add_string_whatever (c : Command) (w : List Char)
    (h : CmdWf c) :
    tokensOf c <+: tokensOf (add_string_whatever c w) := by
  by_cases hn : c.name = []
  · have hstep : add_string_whatever c w = { name := w, args := c.args } := by
      simp [add_string_whatever, hn]
    rw [hstep]
    simp [tokensOf, hn, h hn]
  · have hstep : add_string_whatever c w
        = { name := c.name, args := c.args ++ [w] } := by
      simp [add_string_whatever, hn]
    rw [hstep]
    simp only [tokensOf, if_neg hn]
    rw [← List.append_assoc]
    exact List.prefix_append _ _

theorem proc_chars_mono_aux (n : Nat) :
    ∀ (cs : List Char) (st : St), cs.length ≤ n → CmdWf st.command →
    tokensOf st.command <+: tokensOf (proc_chars cs st).command ∧
    CmdWf (proc_chars cs st).command := by
  induction n with
  | zero =>
    intro cs st hlen h
    have hnil : cs = [] := List.length_eq_zero.mp (Nat.le_zero.mp hlen)
    subst hnil
    exact ⟨List.prefix_refl _, h⟩
  | succ n ih =>
    intro cs st hlen h
    cases cs with
    | nil => exact ⟨List.prefix_refl _, h⟩
    | cons ch rest =>
      have hr : rest.length ≤ n := by
        simp only [List.length_cons] at hlen
        omega
      cases hst : st.state with
      | Normal =>
        cases hbs : st.openBackslash with
        | false =>
          by_cases h1 : ch = '\\'
          · have hstep : proc_chars (ch :: rest) st
                = proc_chars rest { st with openBackslash := true } := by
              cases rest <;> simp [proc_chars, hst, hbs, h1]
            rw [hstep]
            exact ih rest { st with openBackslash := true } hr h
          · by_cases h2 : ch.isWhitespace = true
            · have hstep : proc_chars (ch :: rest) st
                  = proc_chars rest
                    { st with command := add_string st.command st.word,
                              word := [] } := by
                cases rest <;> simp [proc_chars, hst, hbs, h1, h2]
              rw [hstep]
              obtain ⟨hp, hwf⟩ := ih rest
                { st with command := add_string st.command st.word, word := [] }
                hr (add_string_wf _ _ h)
              exact ⟨(tokensOf_add_string _ _ h).trans hp, hwf⟩
            · by_cases h3 : ch = '"'
              · have hstep : proc_chars (ch :: rest) st
                    = proc_chars rest { st with state := .DoubleQuote } := by
                  cases rest <;> simp [proc_chars, hst, hbs, h1, h2, h3]
                rw [hstep]
                exact ih rest { st with state := .DoubleQuote } hr h
              · by_cases h4 : ch = '\''
                · have hstep : proc_chars (ch :: rest) st
                      = proc_chars rest { st with state := .SingleQuote } := by
                    cases rest <;> simp [proc_chars, hst, hbs, h1, h2, h3, h4]
                  rw [hstep]
                  exact ih rest { st with state := .SingleQuote } hr h
                · have hstep : proc_chars (ch :: rest) st
                      = proc_chars rest
                        { st with word := st.word ++ [ch],
                                  openBackslash := false } := by
                    cases rest <;> simp [proc_chars, hst, hbs, h1, h2, h3, h4]
                  rw [hstep]
                  exact ih rest
                    { st with word := st.word ++ [ch], openBackslash := false }
                    hr h
        | true =>
          have hstep : proc_chars (ch :: rest) st
              = proc_chars rest
                { st with word := st.word ++ [ch],
                          openBackslash := false } := by
            cases rest <;> simp [proc_chars, hst, hbs]
          rw [hstep]
          exact ih rest
            { st with word := st.word ++ [ch], openBackslash := false } hr h
      | DoubleQuote =>
        cases hbs : st.openBackslash with
        | false =>
          by_cases h1 : ch = '"'
          · cases rest with
            | nil =>
              have hstep : proc_chars [ch] st = { st with state := .Normal } := by
                simp [proc_chars, hst, hbs, h1]
              rw [hstep]
              exact ⟨List.prefix_refl _, h⟩
            | cons ch2 rest2 =>
              have hr2 : rest2.length ≤ n := by
                simp only [List.length_cons] at hr
                omega
              by_cases hw2 : ch2.isWhitespace = true
              · have hstep : proc_chars (ch :: ch2 :: rest2) st
                    = proc_chars rest2
                      { st with state := .Normal,
                                command :=
                                  add_string_whatever st.command st.word,
                                word := [] } := by
                  simp [proc_chars, hst, hbs, h1, hw2]
                rw [hstep]
                obtain ⟨hp, hwf⟩ := ih rest2
                  { st with state := .Normal,
                            command := add_string_whatever st.command st.word,
                            word := [] }
                  hr2 (add_string_whatever_wf _ _ h)
                exact ⟨(tokensOf_add_string_whatever _ _ h).trans hp, hwf⟩
              · have hstep : proc_chars (ch :: ch2 :: rest2) st
                    = proc_chars (ch2 :: rest2)
                      { st with state := .Normal } := by
                  simp [proc_chars, hst, hbs, h1, hw2]
                rw [hstep]
                exact ih (ch2 :: rest2) { st with state := .Normal } hr h
          · by_cases h2 : ch = '\\'
            · have hstep : proc_chars (ch :: rest) st
                  = proc_chars rest { st with openBackslash := true } := by
                cases rest <;> simp [proc_chars, hst, hbs, h1, h2]
              rw [hstep]
              exact ih rest { st with openBackslash := true } hr h
            · have hstep : proc_chars (ch :: rest) st
                  = proc_chars rest { st with word := st.word ++ [ch] } := by
                cases rest <;> simp [proc_chars, hst, hbs, h1, h2]
              rw [hstep]
              exact ih rest { st with word := st.word ++ [ch] } hr h
        | true =>
          by_cases h4 : ch = '"' ∨ ch = '\\' ∨ ch = Char.ofNat 96 ∨ ch = '$'
          · have hstep : proc_chars (ch :: rest) st
                = proc_chars rest
                  { st with word := st.word ++ [ch],
                            openBackslash := false } := by
              cases rest <;> simp [proc_chars, hst, hbs, h4]
            rw [hstep]
            exact ih rest
              { st with word := st.word ++ [ch], openBackslash := false } hr h
          · have hstep : proc_chars (ch :: rest) st
                = proc_chars rest
                  { st with word := st.word ++ ['\\', ch],
                            openBackslash := false } := by
              cases rest <;> simp [proc_chars, hst, hbs, h4]
            rw [hstep]
            exact ih rest
              { st with word := st.word ++ ['\\', ch], openBackslash := false }
              hr h
      | SingleQuote =>
        by_cases h1 : ch = '\''
        · cases rest with
          | nil =>
            have hstep : proc_chars [ch] st = { st with state := .Normal } := by
              simp [proc_chars, hst, h1]
            rw [hstep]
            exact ⟨List.prefix_refl _, h⟩
          | cons ch2 rest2 =>
            have hr2 : rest2.length ≤ n := by
              simp only [List.length_cons] at hr
              omega
            by_cases hw2 : ch2.isWhitespace = true
            · have hstep : proc_chars (ch :: ch2 :: rest2) st
                  = proc_chars rest2
                    { st with state := .Normal,
                              command := add_string_whatever st.command st.word,
                              word := [] } := by
                simp [proc_chars, hst, h1, hw2]
              rw [hstep]
              obtain ⟨hp, hwf⟩ := ih rest2
                { st with state := .Normal,
                          command := add_string_whatever st.command st.word,
                          word := [] }
                hr2 (add_string_whatever_wf _ _ h)
              exact ⟨(tokensOf_add_string_whatever _ _ h).trans hp, hwf⟩
            · have hstep : proc_chars (ch :: ch2 :: rest2) st
                  = proc_chars (ch2 :: rest2) { st with state := .Normal } := by
                simp [proc_chars, hst, h1, hw2]
              rw [hstep]
              exact ih (ch2 :: rest2) { st with state := .Normal } hr h
        · have hstep : proc_chars (ch :: rest) st
              = proc_chars rest { st with word := st.word ++ [ch] } := by
            cases rest <;> simp [proc_chars, hst, h1]
          rw [hstep]
          exact ih rest { st with word := st.word ++ [ch] } hr h

theorem proc_chars_mono (cs : List Char) (st : St) (h : CmdWf st.command) :
    tokensOf st.command <+: tokensOf (proc_chars cs st).command ∧
    CmdWf (proc_chars cs st).command :=
  proc_chars_mono_aux cs.length cs st le_rfl h

theorem proc_line_mono (b : Bool) (l : List Char) (st : St)
    (h : CmdWf st.command) :
    tokensOf st.command <+: tokensOf (proc_line b l st).command ∧
    CmdWf (proc_line b l st).command := by
  unfold proc_line
  rw [show tokensOf st.command = tokensOf (line_start b st).command from by
    rw [line_start_command]]
  exact proc_chars_mono l (line_start b st)
    (by rw [line_start_command]; exact h)

theorem proc_lines_mono (ls : List (List Char)) :
    ∀ st : St, CmdWf st.command →
    tokensOf st.command <+: tokensOf (proc_lines ls st).command ∧
    CmdWf (proc_lines ls st).command := by
  induction ls with
  | nil => intro st h; exact ⟨List.prefix_refl _, h⟩
  | cons l ls ih =>
    intro st h
    cases ls with
    | nil =>
      simp only [proc_lines]
      exact proc_line_mono true l st h
    | cons l2 ls2 =>
      simp only [proc_lines]
      obtain ⟨hp1, hw1⟩ := proc_line_mono false l st h
      obtain ⟨hp2, hw2⟩ := ih (proc_line false l st) hw1
      exact ⟨hp1.trans hp2, hw2⟩

theorem proc_ns_wf (ls : List (List Char)) :
    ∀ st : St, CmdWf st.command → CmdWf (proc_ns ls st).command := by
  induction ls with
  | nil => intro st h; exact h
  | cons l ls ih =>
    intro st h
    exact ih _ (proc_line_mono false l st h).2

theorem proc_lines_append (ls1 : List (List Char)) :
    ∀ (ls2 : List (List Char)) (st : St), ls2 ≠ [] →
    proc_lines (ls1 ++ ls2) st = proc_lines ls2 (proc_ns ls1 st) := by
  induction ls1 with
  | nil => intro ls2 st _; simp [proc_ns]
  | cons l ls ih =>
    intro ls2 st h2
    obtain ⟨x, xs, hx⟩ := List.exists_cons_of_ne_nil
      (show ls ++ ls2 ≠ [] by simp [h2])
    have hshape : l :: (ls ++ ls2) = l :: x :: xs := by rw [hx]
    rw [List.cons_append, hshape]
    simp only [proc_lines]
    rw [← hx, ih ls2 (proc_line false l st) h2]
    rfl


end Shell

namespace Shell

theorem proc_lines_single_empty (st : St) :
    (proc_lines [[]] st).command = st.command := by
  simp only [proc_lines, proc_line, proc_chars]
  rw [line_start_command]

theorem closed_tokens_extend (b' s : List Char) :
    closed_tokens (b' ++ ['\n']) <+: closed_tokens (b' ++ ['\n'] ++ s) := by
  have h1 : splitNl (b' ++ ['\n']) = splitNl b' ++ [[]] := by
    simpa [splitNl] using splitNl_append b' []
  have happ : b' ++ ['\n'] ++ s = b' ++ '\n' :: s := by simp
  unfold closed_tokens
  rw [h1, happ, splitNl_append b' s]
  rw [proc_lines_append (splitNl b') [[]] st0 (by simp),
    proc_lines_append (splitNl b') (splitNl s) st0 (splitNl_ne_nil s)]
  rw [proc_lines_single_empty]
  have hwf : CmdWf (proc_ns (splitNl b') st0).command :=
    proc_ns_wf (splitNl b') st0 (by intro hh; rfl)
  exact (proc_lines_mono (splitNl s) (proc_ns (splitNl b') st0) hwf).1

end Shell

namespace Shell

/-- C1 (counterexample): tokenizing the accumulated buffer consisting of
`"abc` and the continuation line `def"` does not produce the name
`abcdef`: the scanner inserts the literal newline kept inside the open
double quote, so the name is `abc\ndef`. -/
theorem claim1_counterexample :
    (custom_split "\"abc\ndef\"\n".data).1.name ≠ "abcdef".data := by decide

/-- C1 (amended): the buffer `"abc` alone tokenizes unterminated; the
accumulated buffer `"abc` + `def"` tokenizes to a completed command whose
name is `abc`, a literal newline, `def` — with no embedded quote
characters and the unterminated flag false. -/
theorem claim1_accumulated_newline :
    (custom_split "\"abc\n".data).2 = true ∧
    custom_split "\"abc\ndef\"\n".data
      = ({ name := "abc\ndef".data, args := [] }, false) ∧
    '"' ∉ (custom_split "\"abc\ndef\"\n".data).1.name := by decide

/-- C2 (counterexample): with last recorded status 127, a zero-byte
primary read makes the loop exit with code 0, not 127. -/
theorem claim2_counterexample :
    main_step oracle0 home0 [] stC2 = .exited 0 stC2 ∧
    stC2.last_command_staus = 127 ∧ (0 : Int) ≠ 127 :=
  ⟨rfl, rfl, by decide⟩

/-- C2 (amended): whenever the primary read returns zero bytes, the
process terminates immediately with exit code 0, whatever the last
recorded status was. -/
theorem claim2_eof_exit_zero (o : Oracle) (home : RPath)
    (stream : List (List Char)) (st : ShellState) (rest : List (List Char))
    (h : stream_read stream = (none, rest)) :
    main_step o home stream st = .exited 0 st := by
  simp [main_step, resolve_entry, h]

/-- C2 witness: the amended theorem applied to the empty stream. -/
theorem claim2_eof_exit_zero_witness :
    stream_read ([] : List (List Char)) = (none, []) ∧
    main_step oracle0 home0 [] stC2 = .exited 0 stC2 :=
  ⟨rfl, claim2_eof_exit_zero oracle0 home0 [] stC2 [] rfl⟩

/-- C3 (counterexample): the non-blank entry `"abc` that still ends in a
syntax error (unterminated quote after end of stream) is *not* appended
to history: the loop `continue`s before the history push. -/
theorem claim3_counterexample :
    main_step oracle0 home0 ["\"abc\n".data] stInit = .next [] stInit ∧
    stInit.hist = [] ∧
    ws_split "\"abc\n".data ≠ [] ∧
    (custom_split "\"abc\n".data).2 = true := by
  refine ⟨by decide, rfl, by decide, by decide⟩

/-- C3 (amended): in one loop iteration the raw entry is appended to
history exactly once, after dispatch, when the entry is dispatched
(non-empty name, quotes terminated, and at least one non-whitespace
character); entries discarded for a blank name or for an unterminated
quote are not appended. -/
theorem claim3_history_dispatch_only (o : Oracle) (home : RPath)
    (stream : List (List Char)) (st : ShellState) (entry : List Char)
    (command : Command) (open_quote : Bool) (rest : List (List Char))
    (hr : resolve_entry stream = some (entry, command, open_quote, rest)) :
    (command.name = [] ∨ open_quote = true →
      main_step o home stream st = .next rest st) ∧
    (∀ out current history, command.name ≠ [] → open_quote = false →
      ws_split entry ≠ [] →
      exec_command o command.name command.args st.current_dir
          st.history_current_dir home st.last_command_staus
        = some (.status out current history) →
      main_step o home stream st =
        .next rest { current_dir := current, history_current_dir := history,
                     hist := st.hist ++ [entry],
                     last_command_staus := out }) := by
  constructor
  · rintro (hname | hopen)
    · simp [main_step, hr, hname]
    · subst hopen
      simp [main_step, hr]
  · intro out current history hname hopen hws hexec
    subst hopen
    simp [main_step, hr, hname, hexec, hws]

/-- C3 witness: the amended theorem applied to the entry `zz`, which
dispatches (unknown command, status 127) and is appended to history. -/
theorem claim3_history_dispatch_only_witness :
    main_step oracle0 home0 ["zz\n".data] stInit =
      .next [] { current_dir := home0, history_current_dir := home0,
                 hist := [] ++ ["zz\n".data], last_command_staus := 127 } :=
  (claim3_history_dispatch_only oracle0 home0 ["zz\n".data] stInit
      "zz\n".data { name := "zz".data, args := [] } false [] (by decide)).2
    127 home0 home0 (by decide) rfl (by decide) (by decide)

/-- C4 (counterexample): the input `ab\ncd` contains no quote and no
backslash, yet tokenizes to the single name `abcd` while
whitespace-splitting yields `ab` and `cd`: a line feed inside the buffer
is dropped without finalizing the current word. -/
theorem claim4_counterexample :
    custom_split "ab\ncd".data
      ≠ ({ name := (ws_split "ab\ncd".data).headD [],
           args := (ws_split "ab\ncd".data).tail }, false) := by decide

/-- C4 (amended): for every input with no quote, no backslash and no
line-feed character, tokenization equals whitespace-splitting: the first
token becomes the name, the remaining tokens the arguments in order, and
the unterminated flag is false. -/
theorem claim4_plain_whitespace_split (cs : List Char)
    (h : ∀ c ∈ cs, c ≠ '"' ∧ c ≠ '\'' ∧ c ≠ '\\' ∧ c ≠ '\n') :
    custom_split cs =
      ({ name := (ws_split cs).headD [], args := (ws_split cs).tail },
        false) := by
  have hnl : '\n' ∉ cs := fun hm => (h _ hm).2.2.2 rfl
  have hpp := proc_chars_plain cs { name := [], args := [] } []
    (fun c hc => ⟨(h c hc).1, (h c hc).2.1, (h c hc).2.2.1⟩)
  simp only [custom_split, splitNl_no_nl cs hnl, proc_lines, proc_line,
    line_start_st0]
  simp only [st0]
  refine Prod.ext ?_ ?_
  · show finish _ = _
    rw [hpp.1, foldl_add_string_empty _ (ws_split_aux_ne_nil cs [])]
    rfl
  · show decide _ = false
    simp [hpp.2.1, hpp.2.2]

/-- C4 witness: the amended theorem applied to `echo a b`. -/
theorem claim4_plain_whitespace_split_witness :
    custom_split "echo a b".data =
      ({ name := (ws_split "echo a b".data).headD [],
         args := (ws_split "echo a b".data).tail }, false) :=
  claim4_plain_whitespace_split "echo a b".data (by decide)

/-- C5: dispatching any name outside the fixed handler table returns
status 127 and leaves both directory paths unchanged, and the loop step
records 127 as the last status and continues with the next entry. -/
theorem claim5_unknown_command (o : Oracle) (home : RPath)
    (stream : List (List Char)) (st : ShellState) (entry : List Char)
    (command : Command) (rest : List (List Char))
    (hn : command.name ∉ handler_names) (hne : command.name ≠ [])
    (hr : resolve_entry stream = some (entry, command, false, rest)) :
    exec_command o command.name command.args st.current_dir
        st.history_current_dir home st.last_command_staus
      = some (.status 127 st.current_dir st.history_current_dir) ∧
    main_step o home stream st =
      .next rest { current_dir := st.current_dir,
                   history_current_dir := st.history_current_dir,
                   last_command_staus := 127,
                   hist := if ws_split entry ≠ [] then st.hist ++ [entry]
                           else st.hist } := by
  simp only [handler_names, List.mem_cons, List.not_mem_nil, or_false] at hn
  push_neg at hn
  obtain ⟨h1, h2, h3, h4, h5, h6, h7, h8, h9, h10, h11, h12⟩ := hn
  have hexec : exec_command o command.name command.args st.current_dir
      st.history_current_dir home st.last_command_staus
      = some (.status 127 st.current_dir st.history_current_dir) := by
    simp [exec_command, h1, h2, h3, h4, h5, h6, h7, h8, h9, h10, h11, h12]
  refine ⟨hexec, ?_⟩
  simp [main_step, hr, hne, hexec]

/-- C5 witness: the theorem applied to the unknown command `qq`. -/
theorem claim5_unknown_command_witness :
    exec_command oracle0 "qq".data [] home0 home0 home0 0
      = some (.status 127 home0 home0) ∧
    main_step oracle0 home0 ["qq\n".data] stInit =
      .next [] { current_dir := home0,
                 history_current_dir := home0,
                 last_command_staus := 127,
                 hist := if ws_split "qq\n".data ≠ [] then [] ++ ["qq\n".data]
                         else [] } :=
  claim5_unknown_command oracle0 home0 ["qq\n".data] stInit
    "qq\n".data { name := "qq".data, args := [] } [] (by decide) (by decide)
    (by decide)

/-- C6: whenever `cd` returns status 0 (a successful directory change)
and the current directory is an absolute path, the previous-directory
marker afterwards equals the current directory as it was immediately
before the call. -/
theorem claim6_prev_marker (tab : List (List Char))
    (history current_di home : RPath) (o : Oracle) (h2 c2 : RPath)
    (habs : current_di.absolute = true)
    (hcd : cd tab history current_di home o = some (0, h2, c2)) :
    h2 = current_di := by
  have hpush : history.push current_di = current_di := by
    simp [RPath.push, habs]
  simp only [cd] at hcd
  split at hcd
  · simp at hcd
  · simp at hcd
  · rw [hpush] at hcd
    split at hcd
    · simp at hcd
      exact hcd.1.symm
    · simp at hcd

/-- C6 witness: a concrete successful `cd` call whose marker afterwards
is the prior current directory `/a`. -/
theorem claim6_prev_marker_witness :
    (({ absolute := true, components := ["a".data] } : RPath)).absolute
      = true ∧
    cd [] { absolute := true, components := ["x".data] }
        { absolute := true, components := ["a".data] } home0 oracleCd
      = some (0, { absolute := true, components := ["a".data] },
          { absolute := true, components := ["b".data] }) ∧
    ({ absolute := true, components := ["a".data] } : RPath)
      = { absolute := true, components := ["a".data] } :=
  ⟨rfl, by decide,
    claim6_prev_marker [] { absolute := true, components := ["x".data] }
      { absolute := true, components := ["a".data] } home0 oracleCd
      { absolute := true, components := ["a".data] }
      { absolute := true, components := ["b".data] } rfl (by decide)⟩

/-- C7: `echo foo\` alone is pending (open backslash); with the further
line `bar` the two physical lines splice into one logical line, giving
name `echo` and the single word `foobar`, with no literal backslash and
no newline in any token. -/
theorem claim7_backslash_splice :
    (custom_split "echo foo\\\n".data).2 = true ∧
    custom_split "echo foo\\\nbar\n".data
      = ({ name := "echo".data, args := ["foobar".data] }, false) ∧
    ∀ t ∈ (custom_split "echo foo\\\nbar\n".data).1.name ::
        (custom_split "echo foo\\\nbar\n".data).1.args,
      '\\' ∉ t ∧ '\n' ∉ t := by decide

/-- C8: for an accumulated buffer (always line-feed-terminated in the
driver) that tokenizes as unterminated, appending any continuation line
leaves every token finalized while scanning the old buffer unchanged and
in the same position: the closed-token sequence of the old buffer is a
prefix of that of the extended buffer. -/
theorem claim8_closed_tokens_stable (b' s : List Char)
    (_hunterm : (custom_split (b' ++ ['\n'])).2 = true) :
    closed_tokens (b' ++ ['\n']) <+: closed_tokens (b' ++ ['\n'] ++ s) :=
  closed_tokens_extend b' s

/-- C8 witness: the buffer `w "a` + line feed (unterminated, one closed
token `w`) extended by `b"`. -/
theorem claim8_closed_tokens_stable_witness :
    (custom_split ("w \"a".data ++ ['\n'])).2 = true ∧
    closed_tokens ("w \"a".data ++ ['\n'])
      <+: closed_tokens ("w \"a".data ++ ['\n'] ++ "b\"\n".data) :=
  ⟨by decide, claim8_closed_tokens_stable "w \"a".data "b\"\n".data
    (by decide)⟩

/-- C9: an empty double-quoted token whose closing quote is immediately
followed by a whitespace character leaves the command unchanged at the
start of the input (the name stays empty, so the next non-empty token
becomes the name), while the same empty quoted token after a name is
appended to the arguments as an empty string. -/
theorem claim9_empty_quoted (c : Char) (rest : List Char)
    (hc : c.isWhitespace = true) :
    custom_split ('"' :: '"' :: c :: rest) = custom_split rest ∧
    custom_split "\"\" echo hi".data
      = ({ name := "echo".data, args := ["hi".data] }, false) ∧
    custom_split "echo \"\" hi".data
      = ({ name := "echo".data, args := [[], "hi".data] }, false) := by
  refine ⟨?_, by decide, by decide⟩
  have key : proc_lines (splitNl ('"' :: '"' :: c :: rest)) st0
      = proc_lines (splitNl rest) st0 := by
    obtain ⟨r0, rs, hsp⟩ :=
      List.exists_cons_of_ne_nil (splitNl_ne_nil rest)
    by_cases hnl : c = '\n'
    · subst hnl
      have hs : splitNl ('"' :: '"' :: '\n' :: rest)
          = ['"', '"'] :: splitNl rest := by
        simp [splitNl]
      have hq : proc_line false ['"', '"'] st0 = st0 := by decide
      rw [hs, hsp]
      simp [proc_lines, hq]
    · have hs : splitNl ('"' :: '"' :: c :: rest)
          = ('"' :: '"' :: c :: r0) :: rs := by
        simp [splitNl, hnl, hsp]
      rw [hs, hsp]
      cases rs with
      | nil =>
        simp [proc_lines, proc_line, line_start_st0,
          proc_chars_quote_skip c r0 hc]
      | cons r1 rs2 =>
        simp [proc_lines, proc_line, line_start_st0,
          proc_chars_quote_skip c r0 hc]
  simp [custom_split, key]

/-- C9 witness: the theorem applied at the space character with the
remainder `echo hi`. -/
theorem claim9_empty_quoted_witness :
    ' '.isWhitespace = true ∧
    custom_split ('"' :: '"' :: ' ' :: "echo hi".data)
      = custom_split "echo hi".data :=
  ⟨by decide, (claim9_empty_quoted ' ' "echo hi".data (by decide)).1⟩

/-- C10: the `cd` handler is *not* total: on the argument `é` (any first
argument whose first character is multi-byte), the byte slice
`&path[0..1]` is not on a character boundary and the Rust code panics,
modelled here as `cd` returning `none` for every session state. -/
theorem claim10_cd_panic (history current_di home : RPath) (o : Oracle) :
    cd [['é']] history current_di home o = none := by
  simp [cd, cd_change, Char.utf8Size]

end Shell
